import Mathlib

/-!
Verification of the tiny caching web proxy (src/cache.c, src/cache.h,
src/tinyproxy.c).

The cache (cache.c) is a circular doubly-linked list of blocks; the head
pointer `cache->start` is the most-recently-used block and `start->prev`
is the least-recently-used one.  We embed the list as a Lean `List`
whose head is `start` and whose last element is `start->prev`.  C machine
integers are embedded as `Int` (for `ssize_t` fields) and `Nat` (for
`size_t` parameters).  Functions whose C counterpart can crash
(NULL dereference) or diverge (the `block_free` spin loop with a nonzero
reference count, which in a quiescent run never makes progress) return
`Option`: `none` means "no resulting cache state".
-/

/-- MAX_CACHE_SIZE from cache.h: `1024 * 1024`. -/
def MAX_CACHE_SIZE : Int := 1024 * 1024

/-- MAX_OBJECT_SIZE from cache.h: `100 * 1024`. -/
def MAX_OBJECT_SIZE : Nat := 100 * 1024

/-- `struct cache_block` from cache.h.  The `next`/`prev` pointers are
represented by the block's position in the embedding list. -/
structure cblock where
  text_len : Int
  ref_cont : Int
  uri : String
  text : List Nat
deriving DecidableEq, Repr

/-- `struct cache_info` from cache.h: the running byte total and the
circular list, head = `start` (MRU), last element = `start->prev` (LRU). -/
structure cinfo where
  size : Int
  start : List cblock
deriving DecidableEq, Repr

/-- `cache_init` (cache.c): the empty cache, `size = 0`, `start = NULL`. -/
def cache_init : cinfo := { size := 0, start := [] }

/-- `cache_findblock` (cache.c): walk the list from `start`, return the
first block whose `uri` compares equal (`strcmp == 0`), else NULL. -/
def cache_findblock (uri : String) (c : cinfo) : Option cblock :=
  c.start.find? (fun b => b.uri == uri)

/-- `block_new` (cache.c): a fresh block (via `block_empty`, so
`ref_cont = 0`) holding a copy of the first `text_len` bytes of `text`.
The C parameter `text_len` is a `size_t`, hence `Nat`. -/
def block_new (uri : String) (text : List Nat) (text_len : Nat) : cblock :=
  { text_len := (text_len : Int), ref_cont := 0, uri := uri,
    text := text.take text_len }

/-- `cache_addblock` (cache.c): splice the block in at the front of the
list, increment its reference count, and add its length to the cache
size.  (The `cache->start == NULL` case and the general case both
produce the same embedded list.) -/
def cache_addblock (b : cblock) (c : cinfo) : cinfo :=
  { size := c.size + b.text_len,
    start := { b with ref_cont := b.ref_cont + 1 } :: c.start }

/-- `block_free` (cache.c) spins until `block->ref_cont == 0` and only
then frees the block.  With no concurrent thread to change the count,
the spin loop returns precisely when the count is already zero. -/
def block_free_returns (b : cblock) : Prop := b.ref_cont = 0

/-- `cache_free` (cache.c) walks the circular list once, calling
`block_free` on every block.  It returns precisely when every
`block_free` call it makes returns, i.e. when every listed block has
reference count zero. -/
def cache_free_returns (c : cinfo) : Prop := ∀ b ∈ c.start, b.ref_cont = 0

/-- `cache_remblock` (cache.c): unlink the last block (`start->prev`,
the LRU block), subtract its length from the cache size, decrement its
reference count and hand it to `block_free`.  `none` when the C code
has no resulting state: an empty list (NULL dereference of
`cache->start`) or a spinning `block_free` (post-decrement count
nonzero). -/
def cache_remblock (c : cinfo) : Option cinfo :=
  match c.start.getLast? with
  | none => none
  | some rem =>
      if rem.ref_cont - 1 = 0 then
        some { size := c.size - rem.text_len, start := c.start.dropLast }
      else none

/-- The `while (cache->size + text_len > MAX_CACHE_SIZE) cache_remblock();`
loop of `cache_insert` (cache.c).  Each successful `cache_remblock`
removes one block, so `c.start.length` rounds of fuel are exactly the
iterations the loop can make before the list is empty; one more
iteration on the empty list is the NULL dereference, `none` either way. -/
def evict_loop (text_len : Int) : Nat → cinfo → Option cinfo
  | 0, c =>
      if c.size + text_len ≤ MAX_CACHE_SIZE then some c else none
  | fuel + 1, c =>
      if c.size + text_len ≤ MAX_CACHE_SIZE then some c
      else
        match cache_remblock c with
        | none => none
        | some c' => evict_loop text_len fuel c'

/-- `cache_insert` (cache.c): if a block with this key exists, do
nothing; otherwise evict LRU blocks until the new block fits, then add
it at the front.  `text_len` is the C `ssize_t` parameter; `block_new`
receives it as a `size_t` (`Int.toNat`). -/
def cache_insert (uri : String) (text : List Nat) (text_len : Int)
    (c : cinfo) : Option cinfo :=
  match cache_findblock uri c with
  | some _ => some c
  | none =>
      (evict_loop text_len c.start.length c).map
        (fun c' => cache_addblock (block_new uri text text_len.toNat) c')

/-- Unlink the first block whose `uri` matches (the pointer splicing
`block->next->prev = block->prev; block->prev->next = block->next;` in
`cache_gettext`). -/
def remove_first (uri : String) : List cblock → List cblock
  | [] => []
  | b :: rest => if b.uri == uri then rest else b :: remove_first uri rest

/-- `cache_gettext` (cache.c): look the key up; on a miss return false.
On a hit, pin the block (`ref_cont++`, either directly when it is
`start` or via `cache_addblock` after unlinking it, with the size
increment immediately compensated), write `text_len` bytes of its text
to the file descriptor, then unpin (`ref_cont--`).  The returned triple
is (hit?, bytes written to `fd`, resulting cache state); the increment
and decrement on the reference count and on the size cancel, leaving
the block moved to the front with its fields unchanged. -/
def cache_gettext (uri : String) (c : cinfo) : Bool × List Nat × cinfo :=
  match cache_findblock uri c with
  | none => (false, [], c)
  | some b =>
      (true, b.text.take b.text_len.toNat,
       { size := c.size, start := b :: remove_first uri c.start })

/-- One client-visible cache operation (the mutators reachable from
tinyproxy.c: `cache_insert` and `cache_gettext`; evictions happen
inside `cache_insert`). -/
inductive COp where
  | ins (uri : String) (text : List Nat) (text_len : Int)
  | get (uri : String)
deriving DecidableEq, Repr

/-- Run a sequence of cache operations from a given state.  `none` as
soon as one operation has no resulting state. -/
def cache_run_from (c : cinfo) : List COp → Option cinfo
  | [] => some c
  | COp.ins u t l :: ops =>
      match cache_insert u t l c with
      | none => none
      | some c' => cache_run_from c' ops
  | COp.get u :: ops => cache_run_from (cache_gettext u c).2.2 ops

/-- A cache state the program can actually be in between operations:
produced from the freshly initialized cache by some operation
sequence. -/
def CacheReachable (c : cinfo) : Prop :=
  ∃ ops, cache_run_from cache_init ops = some c

/-- The keys currently stored, in MRU-to-LRU order. -/
def cacheKeys (c : cinfo) : List String := c.start.map (fun b => b.uri)

/-- Sum of the stored byte-lengths (`text_len`) of all entries. -/
def sumTextLen (c : cinfo) : Int := (c.start.map (fun b => b.text_len)).sum

/-- Bound on the `text_len` argument of an insertion, as the proxy
guarantees it (`serve` only inserts when `input_len < MAX_OBJECT_SIZE`,
and lengths are nonnegative). -/
def insLenOK : COp → Bool
  | COp.ins _ _ l => decide (0 ≤ l) && decide (l ≤ (MAX_OBJECT_SIZE : Int))
  | COp.get _ => true

/-!
The request handler `serve` (tinyproxy.c).  The environment abstracts
the outcomes of the external calls the handler makes: whether
`parse_request` succeeded, whether `cache_gettext` hit, whether
`open_clientfd` and `write_header` succeeded, and the sequence of
origin-response chunks delivered by `rio_readnb` together with the
success of each `rio_writen` to the client.  The result records, for
each exit path of `serve`, whether `parser_free` was called, whether
the origin connection was opened and closed, the bytes relayed to the
client, and the `cache_insert` call (if any) that `serve` made.
-/

/-- One iteration of the relay loop in `serve`: a chunk read from the
origin (`rio_readnb` returns only positive-length chunks) and whether
the `rio_writen` of that chunk to the client succeeds. -/
structure RelayStep where
  chunk : List Nat
  write_ok : Bool
deriving DecidableEq, Repr

/-- Outcome of the relay loop of `serve`: whether it ran to completion
(no client-write failure), the final `input_len`, the contents of the
`cache_input` accumulation buffer, and all bytes written to the
client. -/
structure RelayOut where
  ok : Bool
  input_len : Nat
  buffer : List Nat
  written : List Nat
deriving DecidableEq, Repr

/-- The `while ((buf_len = rio_readnb(...)) > 0)` loop of `serve`
(tinyproxy.c): each chunk is written to the client (a failure runs
`clienterror` and returns immediately); `input_len += buf_len` always,
and the chunk is copied into the buffer only when the new total is
still strictly below MAX_OBJECT_SIZE. -/
def relay_loop : List RelayStep → Nat → List Nat → List Nat → RelayOut
  | [], len, bufAcc, w => ⟨true, len, bufAcc, w⟩
  | st :: rest, len, bufAcc, w =>
      if st.write_ok then
        if len + st.chunk.length < MAX_OBJECT_SIZE then
          relay_loop rest (len + st.chunk.length) (bufAcc ++ st.chunk)
            (w ++ st.chunk)
        else
          relay_loop rest (len + st.chunk.length) bufAcc (w ++ st.chunk)
      else ⟨false, len, bufAcc, w⟩

/-- Abstracted environment of one `serve` call. -/
structure ServeEnv where
  parse_ok : Bool
  uri : String
  cache_hit : Bool
  connect_ok : Bool
  header_ok : Bool
  steps : List RelayStep
deriving DecidableEq, Repr

/-- Observable outcome of one `serve` call. -/
structure ServeResult where
  parser_freed : Bool
  origin_opened : Bool
  origin_closed : Bool
  client_bytes : List Nat
  cache_call : Option (String × List Nat × Nat)
deriving DecidableEq, Repr

/-- `serve` (tinyproxy.c), path by path: parse failure frees the parser
and returns; a cache hit frees the parser and returns; a connect
failure closes the (invalid, never-opened) descriptor, frees the
parser and returns; a `write_header` failure closes the origin
connection and frees the parser; the relay loop then runs, and on a
client-write failure `serve` returns after `clienterror` WITHOUT
closing the origin connection or freeing the parser; otherwise
`cache_insert` is called exactly when `input_len < MAX_OBJECT_SIZE`,
then the connection is closed and the parser freed. -/
def serve_model (env : ServeEnv) : ServeResult :=
  if env.parse_ok = false then ⟨true, false, false, [], none⟩
  else if env.cache_hit = true then ⟨true, false, false, [], none⟩
  else if env.connect_ok = false then ⟨true, false, false, [], none⟩
  else if env.header_ok = false then ⟨true, true, true, [], none⟩
  else if (relay_loop env.steps 0 [] []).ok = true then
    ⟨true, true, true, (relay_loop env.steps 0 [] []).written,
      if (relay_loop env.steps 0 [] []).input_len < MAX_OBJECT_SIZE then
        some (env.uri, (relay_loop env.steps 0 [] []).buffer,
          (relay_loop env.steps 0 [] []).input_len)
      else none⟩
  else ⟨false, true, false, (relay_loop env.steps 0 [] []).written, none⟩

/-!
`write_header` (tinyproxy.c), modelled at the byte level.  The stack
buffer `buf` is a list of characters; `sprintf` overwrites its prefix
with the formatted text and a NUL terminator, leaving the rest of the
previous contents in place, and returns the text's length; each
`rio_writen(fd_server, buf, buf_len)` sends the first `buf_len` bytes
of the buffer.  All writes are assumed to succeed (the claim concerns
the bytes sent for a successfully forwarded request).
-/

/-- The NUL terminator `sprintf` writes after the formatted text. -/
def NUL : Char := Char.ofNat 0

/-- `sprintf(buf, ...)`: formatted text, NUL, then the untouched tail
of the previous buffer contents. -/
def sprintf_buf (s : List Char) (buf : List Char) : List Char :=
  s ++ NUL :: buf.drop (s.length + 1)

/-- `header_user_agent` (tinyproxy.c; the three adjacent C string
literals concatenate into one). -/
def header_user_agent : String :=
  "Mozilla/5.0 (X11; Linux x86_64; rv:3.10.0) Gecko/20230411 Firefox/63.0.1"

/-- Input of `write_header`: the parsed request fields
(`request_info`), the client's `Host` header value when present
(`parser_lookup_header(parser, "Host")`), and the remaining header
name/value pairs in original order
(`parser_retrieve_next_header`). -/
structure HRequest where
  method : String
  path : String
  host : String
  port : String
  hostHeader : Option String
  headers : List (String × String)
deriving DecidableEq, Repr

/-- The first `sprintf` of `write_header`: `"%s %s HTTP/1.0\r\n"`. -/
def request_line (r : HRequest) : List Char :=
  (r.method ++ " " ++ r.path ++ " HTTP/1.0\r\n").data

/-- The second `sprintf` of `write_header`: the client's verbatim Host
value if it sent one, otherwise a synthesized `host:port`; then the
fixed User-Agent and the two close headers
(`"Host: %s:%s\r\nUser-Agent: %s\r\n%s%s"` or
`"Host: %s\r\nUser-Agent: %s\r\n%s%s"` with
`connection = "Connection: close\r\n"` and
`proxy_conn = "Proxy-Connection: close\r\n"`). -/
def host_block (r : HRequest) : List Char :=
  (match r.hostHeader with
    | none => "Host: " ++ r.host ++ ":" ++ r.port ++ "\r\nUser-Agent: " ++
        header_user_agent ++
        "\r\nConnection: close\r\nProxy-Connection: close\r\n"
    | some v => "Host: " ++ v ++ "\r\nUser-Agent: " ++ header_user_agent ++
        "\r\nConnection: close\r\nProxy-Connection: close\r\n").data

/-- One pass-through header line: `"%s: %s\r\n"`. -/
def header_line (nv : String × String) : List Char :=
  (nv.1 ++ ": " ++ nv.2 ++ "\r\n").data

/-- The pass-through filter of `write_header`: a header is forwarded
only if its name differs case-sensitively (`strcmp`) from all of
`Host`, `User-Agent`, `Connection` and `Proxy-Connection`. -/
def keep_header (nv : String × String) : Bool :=
  !(nv.1 == "Host") && !(nv.1 == "User-Agent") &&
    !(nv.1 == "Connection") && !(nv.1 == "Proxy-Connection")

/-- The header loop of `write_header`: each kept header is `sprintf`ed
into the buffer (updating `buf_len`) and written; filtered headers
change nothing.  Returns (bytes written, final buffer, final
`buf_len`). -/
def headers_loop : List (String × String) → List Char → Nat →
    List Char × List Char × Nat
  | [], buf, len => ([], buf, len)
  | nv :: rest, buf, len =>
      if keep_header nv then
        ((sprintf_buf (header_line nv) buf).take (header_line nv).length ++
            (headers_loop rest (sprintf_buf (header_line nv) buf)
              (header_line nv).length).1,
          (headers_loop rest (sprintf_buf (header_line nv) buf)
            (header_line nv).length).2)
      else headers_loop rest buf len

/-- Buffer after the request-line `sprintf`. -/
def wh_buf1 (r : HRequest) (buf0 : List Char) : List Char :=
  sprintf_buf (request_line r) buf0

/-- Buffer after the host-block `sprintf`. -/
def wh_buf2 (r : HRequest) (buf0 : List Char) : List Char :=
  sprintf_buf (host_block r) (wh_buf1 r buf0)

/-- State after the header loop (output bytes, buffer, `buf_len`). -/
def wh_loop (r : HRequest) (buf0 : List Char) :
    List Char × List Char × Nat :=
  headers_loop r.headers (wh_buf2 r buf0) (host_block r).length

/-- All bytes `write_header` sends to the origin.  The last step is the
bug site: `sprintf(buf, "\r\n")` discards the returned length, and
`rio_writen(fd_server, buf, buf_len)` reuses the previous `buf_len`, so
the final write sends `buf_len` bytes of the buffer that now starts
with `\r\n` and a NUL but then continues with stale bytes of the
previously formatted line. -/
def write_header_bytes (r : HRequest) (buf0 : List Char) : List Char :=
  (wh_buf1 r buf0).take (request_line r).length ++
  (wh_buf2 r buf0).take (host_block r).length ++
  (wh_loop r buf0).1 ++
  (sprintf_buf ("\r\n".data) (wh_loop r buf0).2.1).take (wh_loop r buf0).2.2

/-- The byte sequence claim C4 describes (stated from the claim's
words, for comparison with `write_header_bytes`): request line, host
block, the kept pass-through headers in order, then a terminating blank
line with no further bytes. -/
def claimed_header_bytes (r : HRequest) : List Char :=
  request_line r ++ host_block r ++
    ((r.headers.filter keep_header).map header_line).flatten ++ "\r\n".data

/-!
Locking discipline of `cache_insert` (cache.c).  `cache_insert` takes
the cache mutex on entry and releases it at the end; `cache_findblock`,
the eviction loop (`cache_remblock`, which calls `block_free`) and
`cache_addblock` all run in between.  `block_free` busy-waits until the
block's reference count is zero; while the caller holds the mutex, no
other thread can take it to decrement its pin, so a wait on a nonzero
count never ends and the unlock is never reached.
-/

/-- Mutex events during `cache_insert`, plus the `block_free` busy-wait
on a block whose post-decrement reference count is nonzero. -/
inductive LockEv where
  | lock
  | unlock
  | waitPin (uri : String)
deriving DecidableEq, Repr

/-- Events of the eviction loop of `cache_insert`: per iteration the
LRU block is unlinked and its count decremented; if the count is now
zero, `block_free` returns at once and the loop continues; otherwise
`block_free` spins forever (no other thread can acquire the held mutex
to release the pin), so the trace ends at the wait.  A NULL
`cache->start` dereference also ends the trace.  The Bool records
whether the loop completed. -/
def evict_trace (text_len : Int) : Nat → cinfo → List LockEv × Bool
  | 0, c => ([], decide (c.size + text_len ≤ MAX_CACHE_SIZE))
  | fuel + 1, c =>
      if c.size + text_len ≤ MAX_CACHE_SIZE then ([], true)
      else
        match c.start.getLast? with
        | none => ([], false)
        | some rem =>
            if rem.ref_cont - 1 = 0 then
              evict_trace text_len fuel
                ⟨c.size - rem.text_len, c.start.dropLast⟩
            else ([LockEv.waitPin rem.uri], false)

/-- Mutex-event trace of one `cache_insert` call: lock, the body
(lookup, evictions, insertion), unlock — where the unlock is reached
only if the eviction loop completes. -/
def insert_trace (uri : String) (text_len : Int) (c : cinfo) :
    List LockEv :=
  LockEv.lock ::
    (match cache_findblock uri c with
      | some _ => [LockEv.unlock]
      | none =>
          match evict_trace text_len c.start.length c with
          | (evs, true) => evs ++ [LockEv.unlock]
          | (evs, false) => evs)

/-- Is some pin-wait event reached while the lock depth is positive? -/
def waits_holding_lock : List LockEv → Int → Bool
  | [], _ => false
  | LockEv.lock :: tr, d => waits_holding_lock tr (d + 1)
  | LockEv.unlock :: tr, d => waits_holding_lock tr (d - 1)
  | LockEv.waitPin _ :: tr, d => decide (0 < d) || waits_holding_lock tr d

/-- Invariant of quiescent cache states (between operations, with no
reader mid-stream): the `size` field equals the sum of the stored
lengths, the size respects the budget, every listed block carries
exactly the one reference `cache_addblock` gave it, stored lengths are
nonnegative (they come from a `size_t`), and keys are unique. -/
structure CacheInv (c : cinfo) : Prop where
  size_eq : c.size = sumTextLen c
  size_le : c.size ≤ MAX_CACHE_SIZE
  ref_one : ∀ b ∈ c.start, b.ref_cont = 1
  len_nonneg : ∀ b ∈ c.start, 0 ≤ b.text_len
  nodup : (cacheKeys c).Nodup

theorem cache_init_inv : CacheInv cache_init := by
  refine ⟨rfl, by decide, ?_, ?_, ?_⟩ <;> simp [cache_init, cacheKeys]

theorem find?_remove_first_perm (u : String) :
    ∀ (l : List cblock) (b : cblock),
      l.find? (fun x => x.uri == u) = some b →
      l.Perm (b :: remove_first u l) := by
  intro l
  induction l with
  | nil => intro b h; simp at h
  | cons x rest ih =>
      intro b h
      cases hx : x.uri == u with
      | true =>
          simp only [List.find?, hx] at h
          injection h with h2
          subst h2
          have hrf : remove_first u (x :: rest) = rest := by
            simp [remove_first, hx]
          rw [hrf]
      | false =>
          simp only [List.find?, hx] at h
          have hrf : remove_first u (x :: rest) = x :: remove_first u rest := by
            simp [remove_first, hx]
          rw [hrf]
          exact ((ih b h).cons x).trans (List.Perm.swap b x _)

theorem cache_gettext_state (u : String) (c : cinfo) :
    (cache_gettext u c).2.2.size = c.size ∧
      c.start.Perm ((cache_gettext u c).2.2).start := by
  unfold cache_gettext
  cases h : cache_findblock u c with
  | none => simp
  | some b =>
      have h' : c.start.find? (fun x => x.uri == u) = some b := h
      exact ⟨rfl, find?_remove_first_perm u c.start b h'⟩

theorem cache_gettext_inv (u : String) (c : cinfo) (hc : CacheInv c) :
    CacheInv (cache_gettext u c).2.2 := by
  obtain ⟨hsz, hperm⟩ := cache_gettext_state u c
  have hn : (c.start.map (fun b => b.uri)).Nodup := hc.nodup
  refine ⟨?_, ?_, ?_, ?_, ?_⟩
  · rw [hsz, hc.size_eq]
    exact (hperm.map (fun b => b.text_len)).sum_eq
  · rw [hsz]; exact hc.size_le
  · intro b hb; exact hc.ref_one b (hperm.mem_iff.mpr hb)
  · intro b hb; exact hc.len_nonneg b (hperm.mem_iff.mpr hb)
  · show ((cache_gettext u c).2.2.start.map (fun b => b.uri)).Nodup
    exact (hperm.map (fun b => b.uri)).nodup_iff.mp hn

theorem cache_remblock_some (c c' : cinfo) (h : cache_remblock c = some c') :
    ∃ rem, c.start ≠ [] ∧ rem ∈ c.start ∧ c.start.getLast? = some rem ∧
      rem.ref_cont = 1 ∧
      c' = { size := c.size - rem.text_len, start := c.start.dropLast } := by
  unfold cache_remblock at h
  cases hgl : c.start.getLast? with
  | none => rw [hgl] at h; exact absurd h (by simp)
  | some rem =>
      rw [hgl] at h
      have h' : (if rem.ref_cont - 1 = 0 then
          some { size := c.size - rem.text_len, start := c.start.dropLast }
          else none) = some c' := h
      by_cases hr : rem.ref_cont - 1 = 0
      · rw [if_pos hr] at h'
        injection h' with h2
        have hne : c.start ≠ [] := by
          intro hnil; rw [hnil] at hgl; simp at hgl
        refine ⟨rem, hne, ?_, rfl, by omega, h2.symm⟩
        have hg := List.getLast?_eq_getLast c.start hne
        rw [hg] at hgl
        injection hgl with h3
        rw [← h3]
        exact List.getLast_mem hne
      · rw [if_neg hr] at h'; exact absurd h' (by simp)

theorem cache_remblock_inv (c c' : cinfo) (hc : CacheInv c)
    (h : cache_remblock c = some c') :
    CacheInv c' ∧ c'.start.length + 1 = c.start.length ∧
      (∀ b ∈ c'.start, b ∈ c.start) := by
  obtain ⟨rem, hne, hremmem, hgl, _, rfl⟩ := cache_remblock_some c c' h
  have hsub : c.start.dropLast.Sublist c.start := List.dropLast_sublist _
  have hmem : ∀ b ∈ c.start.dropLast, b ∈ c.start := fun b hb => hsub.subset hb
  have hdecomp : c.start.dropLast ++ [c.start.getLast hne] = c.start :=
    List.dropLast_append_getLast hne
  have hrem_eq : c.start.getLast hne = rem := by
    have hg := List.getLast?_eq_getLast c.start hne
    rw [hg] at hgl
    injection hgl
  have hs : sumTextLen c =
      (c.start.dropLast.map (fun b => b.text_len)).sum + rem.text_len := by
    conv_lhs => rw [sumTextLen, ← hdecomp]
    rw [List.map_append, List.sum_append, hrem_eq]
    simp
  have hlen0 : 0 < c.start.length := List.length_pos.mpr hne
  refine ⟨⟨?_, ?_, ?_, ?_, ?_⟩, ?_, hmem⟩
  · show c.size - rem.text_len =
      (c.start.dropLast.map (fun b => b.text_len)).sum
    have h1 := hc.size_eq
    omega
  · show c.size - rem.text_len ≤ MAX_CACHE_SIZE
    have h1 := hc.len_nonneg rem hremmem
    have h2 := hc.size_le
    omega
  · intro b hb; exact hc.ref_one b (hmem b hb)
  · intro b hb; exact hc.len_nonneg b (hmem b hb)
  · show (c.start.dropLast.map (fun b => b.uri)).Nodup
    have hn : (c.start.map (fun b => b.uri)).Nodup := hc.nodup
    exact List.Nodup.sublist (hsub.map _) hn
  · show c.start.dropLast.length + 1 = c.start.length
    rw [List.length_dropLast]
    omega

theorem cache_remblock_isSome (c : cinfo) (hc : CacheInv c)
    (hne : c.start ≠ []) : ∃ c', cache_remblock c = some c' := by
  have h1 : c.start.getLast hne ∈ c.start := List.getLast_mem hne
  have h2 := hc.ref_one _ h1
  refine ⟨⟨c.size - (c.start.getLast hne).text_len, c.start.dropLast⟩, ?_⟩
  unfold cache_remblock
  rw [List.getLast?_eq_getLast c.start hne]
  have h3 : (c.start.getLast hne).ref_cont - 1 = 0 := by omega
  show (if (c.start.getLast hne).ref_cont - 1 = 0 then
      some (⟨c.size - (c.start.getLast hne).text_len,
        c.start.dropLast⟩ : cinfo)
      else none) = _
  rw [if_pos h3]

theorem evict_loop_inv (len : Int) :
    ∀ (fuel : Nat) (c c' : cinfo), CacheInv c →
      evict_loop len fuel c = some c' →
      CacheInv c' ∧ c'.size + len ≤ MAX_CACHE_SIZE ∧
        (∀ b ∈ c'.start, b ∈ c.start) := by
  intro fuel
  induction fuel with
  | zero =>
      intro c c' hc h
      unfold evict_loop at h
      by_cases hcond : c.size + len ≤ MAX_CACHE_SIZE
      · rw [if_pos hcond] at h
        injection h with h2
        subst h2
        exact ⟨hc, hcond, fun b hb => hb⟩
      · rw [if_neg hcond] at h; exact absurd h (by simp)
  | succ fuel ih =>
      intro c c' hc h
      unfold evict_loop at h
      by_cases hcond : c.size + len ≤ MAX_CACHE_SIZE
      · rw [if_pos hcond] at h
        injection h with h2
        subst h2
        exact ⟨hc, hcond, fun b hb => hb⟩
      · rw [if_neg hcond] at h
        cases hrem : cache_remblock c with
        | none => rw [hrem] at h; exact absurd h (by simp)
        | some c₁ =>
            rw [hrem] at h
            obtain ⟨hc₁, _, hsub₁⟩ := cache_remblock_inv c c₁ hc hrem
            obtain ⟨hc', hcond', hsub'⟩ := ih c₁ c' hc₁ h
            exact ⟨hc', hcond', fun b hb => hsub₁ b (hsub' b hb)⟩

theorem evict_loop_total (len : Int) (hlen : len ≤ MAX_CACHE_SIZE) :
    ∀ (fuel : Nat) (c : cinfo), CacheInv c → c.start.length ≤ fuel →
      ∃ c', evict_loop len fuel c = some c' := by
  intro fuel
  induction fuel with
  | zero =>
      intro c hc hf
      have hnil : c.start = [] := List.length_eq_zero.mp (Nat.le_zero.mp hf)
      have hsz : c.size = 0 := by
        rw [hc.size_eq]; simp [sumTextLen, hnil]
      refine ⟨c, ?_⟩
      unfold evict_loop
      rw [if_pos (by omega)]
  | succ fuel ih =>
      intro c hc hf
      by_cases hcond : c.size + len ≤ MAX_CACHE_SIZE
      · exact ⟨c, by unfold evict_loop; rw [if_pos hcond]⟩
      · have hne : c.start ≠ [] := by
          intro hnil
          have hsz : c.size = 0 := by
            rw [hc.size_eq]; simp [sumTextLen, hnil]
          omega
        obtain ⟨c₁, hrem⟩ := cache_remblock_isSome c hc hne
        obtain ⟨hc₁, hlen₁, _⟩ := cache_remblock_inv c c₁ hc hrem
        obtain ⟨c', h'⟩ := ih c₁ hc₁ (by omega)
        refine ⟨c', ?_⟩
        unfold evict_loop
        rw [if_neg hcond, hrem]
        exact h'

theorem cache_findblock_eq_none (u : String) (c : cinfo)
    (h : u ∉ cacheKeys c) : cache_findblock u c = none := by
  unfold cache_findblock
  rw [List.find?_eq_none]
  intro b hb hbe
  exact h (List.mem_map.mpr ⟨b, hb, eq_of_beq hbe⟩)

theorem cache_findblock_mem (u : String) (c : cinfo)
    (h : u ∈ cacheKeys c) : ∃ b, cache_findblock u c = some b ∧ b.uri = u := by
  have hsome : (c.start.find? (fun x => x.uri == u)).isSome := by
    rw [List.find?_isSome]
    obtain ⟨b, hb, hbu⟩ := List.mem_map.mp h
    exact ⟨b, hb, by simp [hbu]⟩
  obtain ⟨b, hb⟩ := Option.isSome_iff_exists.mp hsome
  refine ⟨b, hb, ?_⟩
  have hp := List.find?_some hb
  exact eq_of_beq hp

theorem cache_addblock_inv (b : cblock) (c : cinfo) (hc : CacheInv c)
    (hb_ref : b.ref_cont = 0) (hb_len : 0 ≤ b.text_len)
    (hb_uri : ∀ x ∈ c.start, x.uri ≠ b.uri)
    (hfit : c.size + b.text_len ≤ MAX_CACHE_SIZE) :
    CacheInv (cache_addblock b c) := by
  have hsum : sumTextLen (cache_addblock b c) = b.text_len + sumTextLen c := by
    simp [cache_addblock, sumTextLen]
  refine ⟨?_, ?_, ?_, ?_, ?_⟩
  · show c.size + b.text_len = sumTextLen (cache_addblock b c)
    have h1 := hc.size_eq
    omega
  · show c.size + b.text_len ≤ MAX_CACHE_SIZE
    exact hfit
  · intro x hx
    have hx' : x = { b with ref_cont := b.ref_cont + 1 } ∨ x ∈ c.start := by
      simpa [cache_addblock] using hx
    rcases hx' with hx1 | hx2
    · rw [hx1]; show b.ref_cont + 1 = 1; omega
    · exact hc.ref_one x hx2
  · intro x hx
    have hx' : x = { b with ref_cont := b.ref_cont + 1 } ∨ x ∈ c.start := by
      simpa [cache_addblock] using hx
    rcases hx' with hx1 | hx2
    · rw [hx1]; exact hb_len
    · exact hc.len_nonneg x hx2
  · show (((cache_addblock b c).start).map (fun x => x.uri)).Nodup
    have hkeys : ((cache_addblock b c).start).map (fun x => x.uri) =
        b.uri :: c.start.map (fun x => x.uri) := by
      simp [cache_addblock]
    rw [hkeys, List.nodup_cons]
    refine ⟨?_, hc.nodup⟩
    intro hmem
    obtain ⟨x, hx, hxu⟩ := List.mem_map.mp hmem
    exact hb_uri x hx hxu

theorem cache_insert_inv (u : String) (t : List Nat) (len : Int)
    (c c' : cinfo) (hc : CacheInv c)
    (h : cache_insert u t len c = some c') : CacheInv c' := by
  unfold cache_insert at h
  cases hf : cache_findblock u c with
  | some b =>
      rw [hf] at h
      have h' : some c = some c' := h
      injection h' with h2
      exact h2 ▸ hc
  | none =>
      rw [hf] at h
      cases he : evict_loop len c.start.length c with
      | none => rw [he] at h; exact absurd h (by simp)
      | some c₁ =>
          rw [he] at h
          have h'' : some (cache_addblock (block_new u t len.toNat) c₁) =
              some c' := h
          injection h'' with h2
          obtain ⟨hc₁, hfit, hsub⟩ :=
            evict_loop_inv len c.start.length c c₁ hc he
          have hfnone : c.start.find? (fun x => x.uri == u) = none := hf
          have hb_uri :
              ∀ x ∈ c₁.start, x.uri ≠ (block_new u t len.toNat).uri := by
            intro x hx
            have hx' : x ∈ c.start := hsub x hx
            have hnx := List.find?_eq_none.mp hfnone x hx'
            intro hxu
            exact hnx (by simp [block_new] at hxu; simp [hxu])
          have hfit' : c₁.size + (block_new u t len.toNat).text_len ≤
              MAX_CACHE_SIZE := by
            show c₁.size + ((len.toNat : Nat) : Int) ≤ MAX_CACHE_SIZE
            have h3 := hc₁.size_le
            omega
          have hai := cache_addblock_inv (block_new u t len.toNat) c₁ hc₁ rfl
            (by show (0 : Int) ≤ ((len.toNat : Nat) : Int); omega)
            hb_uri hfit'
          exact h2 ▸ hai

theorem cache_insert_total (u : String) (t : List Nat) (len : Int)
    (c : cinfo) (hc : CacheInv c) (hlen : len ≤ MAX_CACHE_SIZE) :
    ∃ c', cache_insert u t len c = some c' := by
  unfold cache_insert
  cases hf : cache_findblock u c with
  | some b => exact ⟨c, rfl⟩
  | none =>
      obtain ⟨c₁, he⟩ := evict_loop_total len hlen c.start.length c hc le_rfl
      exact ⟨cache_addblock (block_new u t len.toNat) c₁, by rw [he]; rfl⟩

theorem cache_run_from_inv :
    ∀ (ops : List COp) (c c' : cinfo), CacheInv c →
      cache_run_from c ops = some c' → CacheInv c' := by
  intro ops
  induction ops with
  | nil =>
      intro c c' hc h
      have h' : some c = some c' := h
      injection h' with h2
      exact h2 ▸ hc
  | cons op rest ih =>
      intro c c' hc h
      cases op with
      | ins u t l =>
          have h' : (match cache_insert u t l c with
              | none => none
              | some c₁ => cache_run_from c₁ rest) = some c' := h
          cases hi : cache_insert u t l c with
          | none => rw [hi] at h'; exact absurd h' (by simp)
          | some c₁ =>
              rw [hi] at h'
              exact ih c₁ c' (cache_insert_inv u t l c c₁ hc hi) h'
      | get u =>
          exact ih _ c' (cache_gettext_inv u c hc) h

theorem cache_reachable_inv (c : cinfo) (h : CacheReachable c) :
    CacheInv c := by
  obtain ⟨ops, hops⟩ := h
  exact cache_run_from_inv ops cache_init c cache_init_inv hops

theorem cache_run_from_total :
    ∀ (ops : List COp) (c : cinfo), CacheInv c →
      (∀ op ∈ ops, insLenOK op = true) →
      ∃ c', cache_run_from c ops = some c' := by
  intro ops
  induction ops with
  | nil => intro c _ _; exact ⟨c, rfl⟩
  | cons op rest ih =>
      intro c hc hops
      have hrest : ∀ op ∈ rest, insLenOK op = true :=
        fun op2 hop2 => hops op2 (List.mem_cons_of_mem _ hop2)
      cases op with
      | ins u t l =>
          have hop := hops _ (List.mem_cons_self _ _)
          have hmo : (MAX_OBJECT_SIZE : Int) ≤ MAX_CACHE_SIZE := by
            norm_num [MAX_OBJECT_SIZE, MAX_CACHE_SIZE]
          simp only [insLenOK, Bool.and_eq_true, decide_eq_true_eq] at hop
          have hl : l ≤ MAX_CACHE_SIZE := by omega
          obtain ⟨c₁, hi⟩ := cache_insert_total u t l c hc hl
          have hc₁ := cache_insert_inv u t l c c₁ hc hi
          obtain ⟨c', h'⟩ := ih c₁ hc₁ hrest
          refine ⟨c', ?_⟩
          have hstep : cache_run_from c (COp.ins u t l :: rest) =
              (match cache_insert u t l c with
                | none => none
                | some c₂ => cache_run_from c₂ rest) := rfl
          rw [hstep, hi]
          exact h'
      | get u =>
          obtain ⟨c', h'⟩ := ih _ (cache_gettext_inv u c hc) hrest
          exact ⟨c', h'⟩

theorem evict_loop_fits (len : Int) (fuel : Nat) (c : cinfo)
    (h : c.size + len ≤ MAX_CACHE_SIZE) : evict_loop len fuel c = some c := by
  cases fuel with
  | zero => unfold evict_loop; rw [if_pos h]
  | succ fuel => unfold evict_loop; rw [if_pos h]

theorem evict_loop_one (len : Int) (fuel : Nat) (c c' : cinfo)
    (h : ¬ c.size + len ≤ MAX_CACHE_SIZE) (hrem : cache_remblock c = some c')
    (h' : c'.size + len ≤ MAX_CACHE_SIZE) :
    evict_loop len (fuel + 1) c = some c' := by
  unfold evict_loop
  rw [if_neg h, hrem]
  exact evict_loop_fits len fuel c' h'

theorem cache_insert_of_fits (u : String) (t : List Nat) (len : Int)
    (c : cinfo) (hf : cache_findblock u c = none)
    (hfit : c.size + len ≤ MAX_CACHE_SIZE) :
    cache_insert u t len c =
      some (cache_addblock (block_new u t len.toNat) c) := by
  unfold cache_insert
  rw [hf, evict_loop_fits len c.start.length c hfit]
  rfl

theorem cache_insert_evict_one (u : String) (t : List Nat) (len : Int)
    (c c₁ : cinfo) (n : Nat) (hf : cache_findblock u c = none)
    (hbig : ¬ c.size + len ≤ MAX_CACHE_SIZE)
    (hrem : cache_remblock c = some c₁)
    (hfit : c₁.size + len ≤ MAX_CACHE_SIZE)
    (hn : c.start.length = n + 1) :
    cache_insert u t len c =
      some (cache_addblock (block_new u t len.toNat) c₁) := by
  unfold cache_insert
  rw [hf, hn, evict_loop_one len n c c₁ hbig hrem hfit]
  rfl

/-- C1.  For every sequence of cache operations starting from
`cache_init`, with every inserted value's length between 0 and
MAX_OBJECT_SIZE, the run succeeds and the sum of the stored `text_len`
fields is at most MAX_CACHE_SIZE after every operation (every prefix of
an admissible sequence is itself an admissible sequence, so this
statement bounds the sum after each step). -/
theorem cache_size_invariant (ops : List COp)
    (h : ∀ op ∈ ops, insLenOK op = true) :
    ∃ c, cache_run_from cache_init ops = some c ∧
      sumTextLen c ≤ MAX_CACHE_SIZE := by
  obtain ⟨c, hc⟩ := cache_run_from_total ops cache_init cache_init_inv h
  have hinv := cache_run_from_inv ops cache_init c cache_init_inv hc
  refine ⟨c, hc, ?_⟩
  rw [← hinv.size_eq]
  exact hinv.size_le

theorem cache_size_invariant_witness :
    (∀ op ∈ [COp.ins "/a" [1, 2] 2, COp.get "/a", COp.ins "/b" [7] 1],
        insLenOK op = true) ∧
    ∃ c, cache_run_from cache_init
        [COp.ins "/a" [1, 2] 2, COp.get "/a", COp.ins "/b" [7] 1] = some c ∧
      sumTextLen c ≤ MAX_CACHE_SIZE :=
  ⟨by decide, cache_size_invariant _ (by decide)⟩

/-- C2 (code bug).  With no handler threads left, a non-empty cache has
every listed block at reference count 1 (never 0), so the `block_free`
spin loop inside `cache_free` never returns: `cache_free` on any
non-empty cache hangs instead of terminating and releasing storage.
Concretely: after a single insertion into the fresh cache, the
resulting state's `cache_free` call does not return. -/
theorem cache_free_hangs_nonempty :
    cache_insert "/a" [1, 2, 3] 3 cache_init =
      some (⟨3, [⟨3, 1, "/a", [1, 2, 3]⟩]⟩ : cinfo) ∧
    ¬ cache_free_returns (⟨3, [⟨3, 1, "/a", [1, 2, 3]⟩]⟩ : cinfo) := by
  constructor
  · decide
  · intro hall
    have h1 := hall ⟨3, 1, "/a", [1, 2, 3]⟩ (by decide)
    exact absurd h1 (by decide)

/-- C8.  `cache_insert` is first-write-wins idempotent: on any reachable
state, inserting a key that is already present returns the state
literally unchanged (so the stored value for the key remains the value
from the first insert), and the keys of any reachable state are
pairwise distinct. -/
theorem cache_insert_first_write_wins (c : cinfo) (h : CacheReachable c)
    (k : String) (t : List Nat) (len : Int) (hk : k ∈ cacheKeys c) :
    cache_insert k t len c = some c ∧ (cacheKeys c).Nodup := by
  have hinv := cache_reachable_inv c h
  obtain ⟨b, hb, _⟩ := cache_findblock_mem k c hk
  refine ⟨?_, hinv.nodup⟩
  unfold cache_insert
  rw [hb]

theorem cache_insert_first_write_wins_witness :
    CacheReachable (⟨2, [⟨2, 1, "/a", [1, 2]⟩]⟩ : cinfo) ∧
    "/a" ∈ cacheKeys (⟨2, [⟨2, 1, "/a", [1, 2]⟩]⟩ : cinfo) ∧
    (cache_insert "/a" [9, 9, 9] 3 (⟨2, [⟨2, 1, "/a", [1, 2]⟩]⟩ : cinfo) =
        some (⟨2, [⟨2, 1, "/a", [1, 2]⟩]⟩ : cinfo) ∧
      (cacheKeys (⟨2, [⟨2, 1, "/a", [1, 2]⟩]⟩ : cinfo)).Nodup) :=
  ⟨⟨[COp.ins "/a" [1, 2] 2], by decide⟩, by decide,
    cache_insert_first_write_wins _ ⟨[COp.ins "/a" [1, 2] 2], by decide⟩
      "/a" [9, 9, 9] 3 (by decide)⟩

/-- C10 (implicit invariant).  Every block linked into the cache list of
a reachable quiescent state has reference count exactly 1 (hence at
least 1, and never 0): `cache_addblock` contributes the one reference,
`cache_gettext`'s pin and unpin are balanced, and nothing else
decrements a listed block's count.  Consequently a `block_free`-style
wait for the count of a still-listed block to reach 0 does not
return. -/
theorem listed_block_ref_count_one (c : cinfo) (h : CacheReachable c) :
    ∀ b ∈ c.start, b.ref_cont = 1 ∧ ¬ block_free_returns b := by
  have hinv := cache_reachable_inv c h
  intro b hb
  have h1 := hinv.ref_one b hb
  refine ⟨h1, ?_⟩
  unfold block_free_returns
  omega

theorem listed_block_ref_count_one_witness :
    CacheReachable (⟨2, [⟨2, 1, "/a", [1, 2]⟩]⟩ : cinfo) ∧
    (⟨2, 1, "/a", [1, 2]⟩ : cblock) ∈
      (⟨2, [⟨2, 1, "/a", [1, 2]⟩]⟩ : cinfo).start ∧
    ((⟨2, 1, "/a", [1, 2]⟩ : cblock).ref_cont = 1 ∧
      ¬ block_free_returns (⟨2, 1, "/a", [1, 2]⟩ : cblock)) :=
  ⟨⟨[COp.ins "/a" [1, 2] 2], by decide⟩, by decide,
    listed_block_ref_count_one (⟨2, [⟨2, 1, "/a", [1, 2]⟩]⟩ : cinfo)
      ⟨[COp.ins "/a" [1, 2] 2], by decide⟩
      (⟨2, 1, "/a", [1, 2]⟩ : cblock) (by decide)⟩

/-- C9.  Round trip: on any reachable state, for a key not present and any
byte sequence of length at most MAX_OBJECT_SIZE, `cache_insert` of that
key and bytes followed immediately by `cache_gettext` of the same key
succeeds (returns true) and writes exactly the inserted bytes. -/
theorem cache_round_trip (c : cinfo) (h : CacheReachable c) (k : String)
    (t : List Nat) (hk : k ∉ cacheKeys c)
    (hlen : t.length ≤ MAX_OBJECT_SIZE) :
    ∃ c', cache_insert k t (t.length : Int) c = some c' ∧
      (cache_gettext k c').1 = true ∧ (cache_gettext k c').2.1 = t := by
  have hinv := cache_reachable_inv c h
  have hmo : (MAX_OBJECT_SIZE : Int) ≤ MAX_CACHE_SIZE := by
    norm_num [MAX_OBJECT_SIZE, MAX_CACHE_SIZE]
  have hlen' : (t.length : Int) ≤ MAX_CACHE_SIZE := by
    have h1 : (t.length : Int) ≤ (MAX_OBJECT_SIZE : Int) := by
      exact_mod_cast hlen
    omega
  have hf : cache_findblock k c = none := cache_findblock_eq_none k c hk
  obtain ⟨c₁, he⟩ :=
    evict_loop_total (t.length : Int) hlen' c.start.length c hinv le_rfl
  have hins : cache_insert k t (t.length : Int) c =
      some (cache_addblock (block_new k t ((t.length : Int)).toNat) c₁) := by
    unfold cache_insert
    rw [hf, he]
    rfl
  have htn : ((t.length : Int)).toNat = t.length := Int.toNat_ofNat _
  rw [htn] at hins
  have hfind :
      cache_findblock k (cache_addblock (block_new k t t.length) c₁) =
        some (⟨(t.length : Int), 0 + 1, k, t.take t.length⟩ : cblock) := by
    show List.find? (fun x => x.uri == k)
        ((⟨(t.length : Int), 0 + 1, k, t.take t.length⟩ : cblock) ::
          c₁.start) = _
    rw [List.find?_cons_of_pos _ (by simp)]
  refine ⟨cache_addblock (block_new k t t.length) c₁, hins, ?_, ?_⟩
  · unfold cache_gettext
    rw [hfind]
  · unfold cache_gettext
    rw [hfind]
    show (t.take t.length).take ((t.length : Int)).toNat = t
    rw [Int.toNat_ofNat, List.take_length, List.take_length]

theorem cache_round_trip_witness :
    CacheReachable cache_init ∧ "/A" ∉ cacheKeys cache_init ∧
    ([1, 2, 3] : List Nat).length ≤ MAX_OBJECT_SIZE ∧
    ∃ c', cache_insert "/A" [1, 2, 3]
        ((([1, 2, 3] : List Nat).length : Int)) cache_init = some c' ∧
      (cache_gettext "/A" c').1 = true ∧
      (cache_gettext "/A" c').2.1 = [1, 2, 3] :=
  ⟨⟨[], rfl⟩, by decide, by decide,
    cache_round_trip cache_init ⟨[], rfl⟩ "/A" [1, 2, 3]
      (by decide) (by decide)⟩

theorem cache_remblock_ref1 (c : cinfo) (rem : cblock)
    (hgl : c.start.getLast? = some rem) (h1 : rem.ref_cont = 1) :
    cache_remblock c =
      some (⟨c.size - rem.text_len, c.start.dropLast⟩ : cinfo) := by
  unfold cache_remblock
  rw [hgl]
  have hif : (if rem.ref_cont - 1 = 0 then
      some (⟨c.size - rem.text_len, c.start.dropLast⟩ : cinfo)
      else none) =
      some (⟨c.size - rem.text_len, c.start.dropLast⟩ : cinfo) :=
    if_pos (by omega)
  exact hif

theorem cache_run_from_ins (u : String) (t : List Nat) (l : Int)
    (c c' : cinfo) (ops : List COp) (h : cache_insert u t l c = some c') :
    cache_run_from c (COp.ins u t l :: ops) = cache_run_from c' ops := by
  have hstep : cache_run_from c (COp.ins u t l :: ops) =
      (match cache_insert u t l c with
        | none => none
        | some c₂ => cache_run_from c₂ ops) := rfl
  rw [hstep, h]

theorem cache_run_from_get (u : String) (c : cinfo) (ops : List COp) :
    cache_run_from c (COp.get u :: ops) =
      cache_run_from (cache_gettext u c).2.2 ops := rfl

/-- C7.  Strict LRU eviction order: insert A, B, C in that order (with no
further access); an insertion of D that needs exactly one eviction
removes A.  If instead A is looked up first (promoting it to
most-recently-used), the same insertion removes B, not A.  The
hypotheses state the size arithmetic: A, B, C fit together; adding D
overflows; and after removing the LRU entry, D fits. -/
theorem lru_eviction_order (a b c d : String) (ta tb tc td : List Nat)
    (la lb lc ld : Nat)
    (hab : a ≠ b) (hac : a ≠ c) (had : a ≠ d)
    (hbc : b ≠ c) (hbd : b ≠ d) (hcd : c ≠ d)
    (habc : (la : Int) + lb + lc ≤ MAX_CACHE_SIZE)
    (hover : ¬ (la : Int) + lb + lc + ld ≤ MAX_CACHE_SIZE)
    (hone : (lb : Int) + lc + ld ≤ MAX_CACHE_SIZE)
    (hone' : (la : Int) + lc + ld ≤ MAX_CACHE_SIZE) :
    (∃ s, cache_run_from cache_init
        [COp.ins a ta la, COp.ins b tb lb, COp.ins c tc lc,
          COp.ins d td ld] = some s ∧ cacheKeys s = [d, c, b]) ∧
    (∃ s, cache_run_from cache_init
        [COp.ins a ta la, COp.ins b tb lb, COp.ins c tc lc, COp.get a,
          COp.ins d td ld] = some s ∧ cacheKeys s = [d, a, c]) := by
  have hab' : (a == b) = false := beq_eq_false_iff_ne.mpr hab
  have hac' : (a == c) = false := beq_eq_false_iff_ne.mpr hac
  have had' : (a == d) = false := beq_eq_false_iff_ne.mpr had
  have hbc' : (b == c) = false := beq_eq_false_iff_ne.mpr hbc
  have hbd' : (b == d) = false := beq_eq_false_iff_ne.mpr hbd
  have hcd' : (c == d) = false := beq_eq_false_iff_ne.mpr hcd
  have hba' : (b == a) = false := beq_eq_false_iff_ne.mpr (Ne.symm hab)
  have hca' : (c == a) = false := beq_eq_false_iff_ne.mpr (Ne.symm hac)
  -- Step 1: insert A into the empty cache.
  have hfitA : cache_init.size + (la : Int) ≤ MAX_CACHE_SIZE := by
    show (0 : Int) + (la : Int) ≤ MAX_CACHE_SIZE
    omega
  have hA : cache_insert a ta (la : Int) cache_init =
      some (⟨(la : Int),
        [⟨(la : Int), 1, a, ta.take la⟩]⟩ : cinfo) := by
    rw [cache_insert_of_fits a ta (la : Int) cache_init rfl hfitA]
    simp [cache_addblock, block_new, cache_init]
  -- Step 2: insert B; the list becomes [B, A].
  have hfB : cache_findblock b
      (⟨(la : Int), [⟨(la : Int), 1, a, ta.take la⟩]⟩ : cinfo) = none := by
    show List.find? (fun x => x.uri == b)
        [(⟨(la : Int), 1, a, ta.take la⟩ : cblock)] = none
    rw [List.find?_cons_of_neg _ (by simp [hab'])]
    rfl
  have hfitB : (⟨(la : Int),
      [⟨(la : Int), 1, a, ta.take la⟩]⟩ : cinfo).size + (lb : Int) ≤
      MAX_CACHE_SIZE := by
    show (la : Int) + (lb : Int) ≤ MAX_CACHE_SIZE
    omega
  have hB : cache_insert b tb (lb : Int)
      (⟨(la : Int), [⟨(la : Int), 1, a, ta.take la⟩]⟩ : cinfo) =
      some (⟨(la : Int) + (lb : Int),
        [⟨(lb : Int), 1, b, tb.take lb⟩,
         ⟨(la : Int), 1, a, ta.take la⟩]⟩ : cinfo) := by
    rw [cache_insert_of_fits b tb (lb : Int) _ hfB hfitB]
    simp [cache_addblock, block_new]
  -- Step 3: insert C; the list becomes [C, B, A].
  have hfC : cache_findblock c
      (⟨(la : Int) + (lb : Int),
        [⟨(lb : Int), 1, b, tb.take lb⟩,
         ⟨(la : Int), 1, a, ta.take la⟩]⟩ : cinfo) = none := by
    show List.find? (fun x => x.uri == c)
        [(⟨(lb : Int), 1, b, tb.take lb⟩ : cblock),
         (⟨(la : Int), 1, a, ta.take la⟩ : cblock)] = none
    rw [List.find?_cons_of_neg _ (by simp [hbc']),
      List.find?_cons_of_neg _ (by simp [hac'])]
    rfl
  have hfitC : (⟨(la : Int) + (lb : Int),
      [⟨(lb : Int), 1, b, tb.take lb⟩,
       ⟨(la : Int), 1, a, ta.take la⟩]⟩ : cinfo).size + (lc : Int) ≤
      MAX_CACHE_SIZE := by
    show (la : Int) + (lb : Int) + (lc : Int) ≤ MAX_CACHE_SIZE
    omega
  have hC : cache_insert c tc (lc : Int)
      (⟨(la : Int) + (lb : Int),
        [⟨(lb : Int), 1, b, tb.take lb⟩,
         ⟨(la : Int), 1, a, ta.take la⟩]⟩ : cinfo) =
      some (⟨(la : Int) + (lb : Int) + (lc : Int),
        [⟨(lc : Int), 1, c, tc.take lc⟩,
         ⟨(lb : Int), 1, b, tb.take lb⟩,
         ⟨(la : Int), 1, a, ta.take la⟩]⟩ : cinfo) := by
    rw [cache_insert_of_fits c tc (lc : Int) _ hfC hfitC]
    simp [cache_addblock, block_new]
  constructor
  · -- Scenario 1: insert D straight away; A (the tail) is evicted.
    have hfD : cache_findblock d
        (⟨(la : Int) + (lb : Int) + (lc : Int),
          [⟨(lc : Int), 1, c, tc.take lc⟩,
           ⟨(lb : Int), 1, b, tb.take lb⟩,
           ⟨(la : Int), 1, a, ta.take la⟩]⟩ : cinfo) = none := by
      show List.find? (fun x => x.uri == d)
          [(⟨(lc : Int), 1, c, tc.take lc⟩ : cblock),
           (⟨(lb : Int), 1, b, tb.take lb⟩ : cblock),
           (⟨(la : Int), 1, a, ta.take la⟩ : cblock)] = none
      rw [List.find?_cons_of_neg _ (by simp [hcd']),
        List.find?_cons_of_neg _ (by simp [hbd']),
        List.find?_cons_of_neg _ (by simp [had'])]
      rfl
    have hbigD : ¬ (⟨(la : Int) + (lb : Int) + (lc : Int),
        [⟨(lc : Int), 1, c, tc.take lc⟩,
         ⟨(lb : Int), 1, b, tb.take lb⟩,
         ⟨(la : Int), 1, a, ta.take la⟩]⟩ : cinfo).size + (ld : Int) ≤
        MAX_CACHE_SIZE := by
      show ¬ (la : Int) + (lb : Int) + (lc : Int) + (ld : Int) ≤
        MAX_CACHE_SIZE
      exact hover
    have hremD : cache_remblock
        (⟨(la : Int) + (lb : Int) + (lc : Int),
          [⟨(lc : Int), 1, c, tc.take lc⟩,
           ⟨(lb : Int), 1, b, tb.take lb⟩,
           ⟨(la : Int), 1, a, ta.take la⟩]⟩ : cinfo) =
        some (⟨(la : Int) + (lb : Int) + (lc : Int) - (la : Int),
          [⟨(lc : Int), 1, c, tc.take lc⟩,
           ⟨(lb : Int), 1, b, tb.take lb⟩]⟩ : cinfo) := by
      rw [cache_remblock_ref1 _ (⟨(la : Int), 1, a, ta.take la⟩ : cblock)
        (by simp) rfl]
      simp
    have hfitD : (⟨(la : Int) + (lb : Int) + (lc : Int) - (la : Int),
        [⟨(lc : Int), 1, c, tc.take lc⟩,
         ⟨(lb : Int), 1, b, tb.take lb⟩]⟩ : cinfo).size + (ld : Int) ≤
        MAX_CACHE_SIZE := by
      show (la : Int) + (lb : Int) + (lc : Int) - (la : Int) + (ld : Int) ≤
        MAX_CACHE_SIZE
      omega
    have hD := cache_insert_evict_one d td (ld : Int) _ _ 2 hfD hbigD
      hremD hfitD rfl
    refine ⟨cache_addblock (block_new d td ((ld : Int)).toNat)
      (⟨(la : Int) + (lb : Int) + (lc : Int) - (la : Int),
        [⟨(lc : Int), 1, c, tc.take lc⟩,
         ⟨(lb : Int), 1, b, tb.take lb⟩]⟩ : cinfo), ?_, ?_⟩
    · rw [cache_run_from_ins _ _ _ _ _ _ hA, cache_run_from_ins _ _ _ _ _ _ hB,
        cache_run_from_ins _ _ _ _ _ _ hC, cache_run_from_ins _ _ _ _ _ _ hD]
      rfl
    · simp [cacheKeys, cache_addblock, block_new]
  · -- Scenario 2: look A up first (promoting it), then insert D; B is
    -- evicted instead of A.
    have hfa : cache_findblock a
        (⟨(la : Int) + (lb : Int) + (lc : Int),
          [⟨(lc : Int), 1, c, tc.take lc⟩,
           ⟨(lb : Int), 1, b, tb.take lb⟩,
           ⟨(la : Int), 1, a, ta.take la⟩]⟩ : cinfo) =
        some (⟨(la : Int), 1, a, ta.take la⟩ : cblock) := by
      show List.find? (fun x => x.uri == a)
          [(⟨(lc : Int), 1, c, tc.take lc⟩ : cblock),
           (⟨(lb : Int), 1, b, tb.take lb⟩ : cblock),
           (⟨(la : Int), 1, a, ta.take la⟩ : cblock)] = _
      rw [List.find?_cons_of_neg _ (by simp [hca']),
        List.find?_cons_of_neg _ (by simp [hba']),
        List.find?_cons_of_pos _ (by simp)]
    have hG : (cache_gettext a
        (⟨(la : Int) + (lb : Int) + (lc : Int),
          [⟨(lc : Int), 1, c, tc.take lc⟩,
           ⟨(lb : Int), 1, b, tb.take lb⟩,
           ⟨(la : Int), 1, a, ta.take la⟩]⟩ : cinfo)).2.2 =
        (⟨(la : Int) + (lb : Int) + (lc : Int),
          [⟨(la : Int), 1, a, ta.take la⟩,
           ⟨(lc : Int), 1, c, tc.take lc⟩,
           ⟨(lb : Int), 1, b, tb.take lb⟩]⟩ : cinfo) := by
      unfold cache_gettext
      rw [hfa]
      show (⟨(la : Int) + (lb : Int) + (lc : Int),
          (⟨(la : Int), 1, a, ta.take la⟩ : cblock) :: remove_first a
            [⟨(lc : Int), 1, c, tc.take lc⟩,
             ⟨(lb : Int), 1, b, tb.take lb⟩,
             ⟨(la : Int), 1, a, ta.take la⟩]⟩ : cinfo) = _
      simp [remove_first, hca', hba']
    have hfD2 : cache_findblock d
        (⟨(la : Int) + (lb : Int) + (lc : Int),
          [⟨(la : Int), 1, a, ta.take la⟩,
           ⟨(lc : Int), 1, c, tc.take lc⟩,
           ⟨(lb : Int), 1, b, tb.take lb⟩]⟩ : cinfo) = none := by
      show List.find? (fun x => x.uri == d)
          [(⟨(la : Int), 1, a, ta.take la⟩ : cblock),
           (⟨(lc : Int), 1, c, tc.take lc⟩ : cblock),
           (⟨(lb : Int), 1, b, tb.take lb⟩ : cblock)] = none
      rw [List.find?_cons_of_neg _ (by simp [had']),
        List.find?_cons_of_neg _ (by simp [hcd']),
        List.find?_cons_of_neg _ (by simp [hbd'])]
      rfl
    have hbigD2 : ¬ (⟨(la : Int) + (lb : Int) + (lc : Int),
        [⟨(la : Int), 1, a, ta.take la⟩,
         ⟨(lc : Int), 1, c, tc.take lc⟩,
         ⟨(lb : Int), 1, b, tb.take lb⟩]⟩ : cinfo).size + (ld : Int) ≤
        MAX_CACHE_SIZE := by
      show ¬ (la : Int) + (lb : Int) + (lc : Int) + (ld : Int) ≤
        MAX_CACHE_SIZE
      exact hover
    have hremD2 : cache_remblock
        (⟨(la : Int) + (lb : Int) + (lc : Int),
          [⟨(la : Int), 1, a, ta.take la⟩,
           ⟨(lc : Int), 1, c, tc.take lc⟩,
           ⟨(lb : Int), 1, b, tb.take lb⟩]⟩ : cinfo) =
        some (⟨(la : Int) + (lb : Int) + (lc : Int) - (lb : Int),
          [⟨(la : Int), 1, a, ta.take la⟩,
           ⟨(lc : Int), 1, c, tc.take lc⟩]⟩ : cinfo) := by
      rw [cache_remblock_ref1 _ (⟨(lb : Int), 1, b, tb.take lb⟩ : cblock)
        (by simp) rfl]
      simp
    have hfitD2 : (⟨(la : Int) + (lb : Int) + (lc : Int) - (lb : Int),
        [⟨(la : Int), 1, a, ta.take la⟩,
         ⟨(lc : Int), 1, c, tc.take lc⟩]⟩ : cinfo).size + (ld : Int) ≤
        MAX_CACHE_SIZE := by
      show (la : Int) + (lb : Int) + (lc : Int) - (lb : Int) + (ld : Int) ≤
        MAX_CACHE_SIZE
      omega
    have hD2 := cache_insert_evict_one d td (ld : Int) _ _ 2 hfD2 hbigD2
      hremD2 hfitD2 rfl
    refine ⟨cache_addblock (block_new d td ((ld : Int)).toNat)
      (⟨(la : Int) + (lb : Int) + (lc : Int) - (lb : Int),
        [⟨(la : Int), 1, a, ta.take la⟩,
         ⟨(lc : Int), 1, c, tc.take lc⟩]⟩ : cinfo), ?_, ?_⟩
    · rw [cache_run_from_ins _ _ _ _ _ _ hA, cache_run_from_ins _ _ _ _ _ _ hB,
        cache_run_from_ins _ _ _ _ _ _ hC, cache_run_from_get, hG,
        cache_run_from_ins _ _ _ _ _ _ hD2]
      rfl
    · simp [cacheKeys, cache_addblock, block_new]

theorem lru_eviction_order_witness :
    ("A" ≠ "B" ∧ "A" ≠ "C" ∧ "A" ≠ "D" ∧ "B" ≠ "C" ∧ "B" ≠ "D" ∧
      "C" ≠ "D") ∧
    (((300000 : Nat) : Int) + 300000 + 300000 ≤ MAX_CACHE_SIZE ∧
      ¬ ((300000 : Nat) : Int) + 300000 + 300000 + 300000 ≤
        MAX_CACHE_SIZE) ∧
    ((∃ s, cache_run_from cache_init
        [COp.ins "A" [] 300000, COp.ins "B" [] 300000,
          COp.ins "C" [] 300000, COp.ins "D" [] 300000] = some s ∧
        cacheKeys s = ["D", "C", "B"]) ∧
      (∃ s, cache_run_from cache_init
        [COp.ins "A" [] 300000, COp.ins "B" [] 300000,
          COp.ins "C" [] 300000, COp.get "A",
          COp.ins "D" [] 300000] = some s ∧
        cacheKeys s = ["D", "A", "C"])) :=
  ⟨⟨by decide, by decide, by decide, by decide, by decide, by decide⟩,
    ⟨by decide, by decide⟩,
    lru_eviction_order "A" "B" "C" "D" [] [] [] [] 300000 300000 300000 300000
      (by decide) (by decide) (by decide) (by decide) (by decide) (by decide)
      (by decide) (by decide) (by decide) (by decide)⟩

theorem serve_model_relay (uri : String) (steps : List RelayStep) :
    serve_model ⟨true, uri, false, true, true, steps⟩ =
      (if (relay_loop steps 0 [] []).ok = true then
        ⟨true, true, true, (relay_loop steps 0 [] []).written,
          if (relay_loop steps 0 [] []).input_len < MAX_OBJECT_SIZE then
            some (uri, (relay_loop steps 0 [] []).buffer,
              (relay_loop steps 0 [] []).input_len)
          else none⟩
      else ⟨false, true, false, (relay_loop steps 0 [] []).written,
        none⟩) := rfl

theorem relay_loop_all_ok :
    ∀ (steps : List RelayStep) (len0 : Nat) (buf0 w0 : List Nat),
      (∀ s ∈ steps, s.write_ok = true) →
      (relay_loop steps len0 buf0 w0).ok = true ∧
      (relay_loop steps len0 buf0 w0).input_len =
        len0 + (steps.map (fun s => s.chunk.length)).sum ∧
      (relay_loop steps len0 buf0 w0).written =
        w0 ++ (steps.map (fun s => s.chunk)).flatten := by
  intro steps
  induction steps with
  | nil => intro len0 buf0 w0 _; simp [relay_loop]
  | cons st rest ih =>
      intro len0 buf0 w0 h
      have hst : st.write_ok = true := h st (List.mem_cons_self _ _)
      have hrest : ∀ s ∈ rest, s.write_ok = true :=
        fun s hs => h s (List.mem_cons_of_mem _ hs)
      unfold relay_loop
      rw [if_pos hst]
      by_cases hcap : len0 + st.chunk.length < MAX_OBJECT_SIZE
      · rw [if_pos hcap]
        obtain ⟨h1, h2, h3⟩ :=
          ih (len0 + st.chunk.length) (buf0 ++ st.chunk) (w0 ++ st.chunk)
            hrest
        refine ⟨h1, ?_, ?_⟩
        · rw [h2]; simp; omega
        · rw [h3]; simp
      · rw [if_neg hcap]
        obtain ⟨h1, h2, h3⟩ :=
          ih (len0 + st.chunk.length) buf0 (w0 ++ st.chunk) hrest
        refine ⟨h1, ?_, ?_⟩
        · rw [h2]; simp; omega
        · rw [h3]; simp

theorem relay_loop_buffer :
    ∀ (steps : List RelayStep) (len0 : Nat) (buf0 w0 : List Nat),
      (∀ s ∈ steps, s.write_ok = true) →
      len0 + (steps.map (fun s => s.chunk.length)).sum < MAX_OBJECT_SIZE →
      (relay_loop steps len0 buf0 w0).buffer =
        buf0 ++ (steps.map (fun s => s.chunk)).flatten := by
  intro steps
  induction steps with
  | nil => intro len0 buf0 w0 _ _; simp [relay_loop]
  | cons st rest ih =>
      intro len0 buf0 w0 h hlt
      have hst : st.write_ok = true := h st (List.mem_cons_self _ _)
      have hrest : ∀ s ∈ rest, s.write_ok = true :=
        fun s hs => h s (List.mem_cons_of_mem _ hs)
      have hsum : len0 + st.chunk.length +
          (rest.map (fun s => s.chunk.length)).sum < MAX_OBJECT_SIZE := by
        simp at hlt
        omega
      have hcap : len0 + st.chunk.length < MAX_OBJECT_SIZE := by omega
      unfold relay_loop
      rw [if_pos hst, if_pos hcap]
      rw [ih (len0 + st.chunk.length) (buf0 ++ st.chunk) (w0 ++ st.chunk)
        hrest hsum]
      simp

/-- C5 (code bug).  On the client-write-failure path of the relay loop,
`serve` returns after `clienterror` without calling `parser_free` and
without `close(fd_server)`, even though the origin connection was
opened: the claim that every exit path frees the parser and closes the
origin connection fails on this path.  Concrete run: parse succeeds,
cache miss, connect and header write succeed, and the client write of
the first response chunk fails. -/
theorem serve_leaks_on_client_write_error :
    (serve_model ⟨true, "/x", false, true, true,
        [⟨[7], false⟩]⟩).origin_opened = true ∧
    (serve_model ⟨true, "/x", false, true, true,
        [⟨[7], false⟩]⟩).parser_freed = false ∧
    (serve_model ⟨true, "/x", false, true, true,
        [⟨[7], false⟩]⟩).origin_closed = false := by
  decide

/-- C3 counterexample.  A fully relayed origin response of total length
exactly MAX_OBJECT_SIZE (102,400 bytes: 25 successfully written chunks
of 4,096 bytes) is within the claimed caching budget of "at most
MAX_OBJECT_SIZE", yet `serve` performs no cache insertion, because the
code's condition is the strict `input_len < MAX_OBJECT_SIZE`. -/
theorem serve_no_insert_at_exact_budget :
    ((List.replicate 25 (⟨List.replicate 4096 0, true⟩ : RelayStep)).map
        (fun s => s.chunk.length)).sum = MAX_OBJECT_SIZE ∧
    (serve_model ⟨true, "/big", false, true, true,
        List.replicate 25 (⟨List.replicate 4096 0, true⟩ : RelayStep)⟩).cache_call
      = none := by
  have hok : ∀ s ∈ List.replicate 25
      (⟨List.replicate 4096 0, true⟩ : RelayStep), s.write_ok = true := by
    intro s hs
    rw [List.eq_of_mem_replicate hs]
  have hsum : ((List.replicate 25
      (⟨List.replicate 4096 0, true⟩ : RelayStep)).map
      (fun s => s.chunk.length)).sum = 102400 := by
    rw [List.map_replicate, List.sum_replicate]
    dsimp only
    rw [List.length_replicate, smul_eq_mul]
  obtain ⟨h1, h2, _⟩ := relay_loop_all_ok _ 0 [] [] hok
  constructor
  · rw [hsum]; norm_num [MAX_OBJECT_SIZE]
  · rw [serve_model_relay, if_pos h1]
    dsimp only
    rw [if_neg (by rw [h2, hsum]; norm_num [MAX_OBJECT_SIZE])]

/-- C3 as amended.  For a fully relayed origin response (every client
write succeeds; the chunks are the successive positive-length reads):
all bytes are written to the client; if the total length is strictly
below MAX_OBJECT_SIZE the accumulated bytes are inserted under the
request URI after the relay completes; if the total length is at least
MAX_OBJECT_SIZE the full response is still written to the client but no
cache insertion occurs. -/
theorem serve_relay_capture_amended (uri : String) (steps : List RelayStep)
    (hok : ∀ s ∈ steps, s.write_ok = true)
    (_hpos : ∀ s ∈ steps, s.chunk ≠ []) :
    (serve_model ⟨true, uri, false, true, true, steps⟩).client_bytes =
      (steps.map (fun s => s.chunk)).flatten ∧
    ((steps.map (fun s => s.chunk.length)).sum < MAX_OBJECT_SIZE →
      (serve_model ⟨true, uri, false, true, true, steps⟩).cache_call =
        some (uri, (steps.map (fun s => s.chunk)).flatten,
          (steps.map (fun s => s.chunk.length)).sum)) ∧
    (MAX_OBJECT_SIZE ≤ (steps.map (fun s => s.chunk.length)).sum →
      (serve_model ⟨true, uri, false, true, true, steps⟩).cache_call =
        none) := by
  obtain ⟨h1, h2, h3⟩ := relay_loop_all_ok steps 0 [] [] hok
  rw [serve_model_relay, if_pos h1]
  refine ⟨?_, ?_, ?_⟩
  · show (relay_loop steps 0 [] []).written =
      (steps.map (fun s => s.chunk)).flatten
    rw [h3]
    simp
  · intro hlt
    have hbuf := relay_loop_buffer steps 0 [] [] hok (by omega)
    show (if (relay_loop steps 0 [] []).input_len < MAX_OBJECT_SIZE then
        some (uri, (relay_loop steps 0 [] []).buffer,
          (relay_loop steps 0 [] []).input_len)
      else none) = _
    rw [if_pos (by rw [h2]; omega)]
    rw [h2, hbuf]
    simp
  · intro hge
    show (if (relay_loop steps 0 [] []).input_len < MAX_OBJECT_SIZE then
        some (uri, (relay_loop steps 0 [] []).buffer,
          (relay_loop steps 0 [] []).input_len)
      else none) = none
    rw [if_neg (by rw [h2]; omega)]

theorem serve_relay_capture_amended_witness :
    (∀ s ∈ [(⟨[1, 2, 3], true⟩ : RelayStep)], s.write_ok = true) ∧
    (∀ s ∈ [(⟨[1, 2, 3], true⟩ : RelayStep)], s.chunk ≠ []) ∧
    ((serve_model ⟨true, "/w", false, true, true,
        [⟨[1, 2, 3], true⟩]⟩).client_bytes =
      (([(⟨[1, 2, 3], true⟩ : RelayStep)]).map (fun s => s.chunk)).flatten ∧
    ((([(⟨[1, 2, 3], true⟩ : RelayStep)]).map
        (fun s => s.chunk.length)).sum < MAX_OBJECT_SIZE →
      (serve_model ⟨true, "/w", false, true, true,
          [⟨[1, 2, 3], true⟩]⟩).cache_call =
        some ("/w",
          (([(⟨[1, 2, 3], true⟩ : RelayStep)]).map
            (fun s => s.chunk)).flatten,
          (([(⟨[1, 2, 3], true⟩ : RelayStep)]).map
            (fun s => s.chunk.length)).sum)) ∧
    (MAX_OBJECT_SIZE ≤ (([(⟨[1, 2, 3], true⟩ : RelayStep)]).map
        (fun s => s.chunk.length)).sum →
      (serve_model ⟨true, "/w", false, true, true,
          [⟨[1, 2, 3], true⟩]⟩).cache_call = none)) :=
  ⟨by decide, by decide,
    serve_relay_capture_amended "/w" [⟨[1, 2, 3], true⟩]
      (by decide) (by decide)⟩

theorem drop_append_of_le_len {α : Type} :
    ∀ (n : Nat) (l₁ l₂ : List α), n ≤ l₁.length →
      (l₁ ++ l₂).drop n = l₁.drop n ++ l₂ := by
  intro n
  induction n with
  | zero => intro l₁ l₂ _; simp
  | succ n ih =>
      intro l₁ l₂ h
      cases l₁ with
      | nil => simp at h
      | cons a l =>
          show (l ++ l₂).drop n = l.drop n ++ l₂
          refine ih l l₂ ?_
          simp only [List.length_cons] at h
          omega

theorem sprintf_buf_take (s buf : List Char) :
    (sprintf_buf s buf).take s.length = s := by
  unfold sprintf_buf
  exact List.take_left s (NUL :: buf.drop (s.length + 1))

/-- With no pass-through headers, `write_header` sends the request
line, the host block, and then — because the final `rio_writen` reuses
the previous `buf_len` after `sprintf(buf, "\r\n")` — the blank line
followed by a NUL and the stale tail of the host block, whatever the
initial (uninitialized) buffer contents were. -/
theorem write_header_bytes_no_extra_headers (r : HRequest)
    (hh : r.headers = []) (h3 : 3 ≤ (host_block r).length)
    (buf0 : List Char) :
    write_header_bytes r buf0 =
      request_line r ++ host_block r ++
        ("\r\n".data ++ NUL :: (host_block r).drop 3) := by
  obtain ⟨m, hm⟩ : ∃ m, (host_block r).length = m + 3 :=
    ⟨(host_block r).length - 3, by omega⟩
  have hfin : (sprintf_buf ("\r\n".data)
      (sprintf_buf (host_block r) (sprintf_buf (request_line r) buf0))).take
        (host_block r).length =
      "\r\n".data ++ NUL :: (host_block r).drop 3 := by
    have hdata : ("\r\n".data : List Char) = ['\r', '\n'] := rfl
    show (("\r\n".data : List Char) ++ NUL ::
        (host_block r ++ NUL ::
          (sprintf_buf (request_line r) buf0).drop
            ((host_block r).length + 1)).drop
          (("\r\n".data : List Char).length + 1)).take
        (host_block r).length = _
    rw [hdata]
    show (('\r' : Char) :: '\n' :: NUL ::
        (host_block r ++ NUL ::
          (sprintf_buf (request_line r) buf0).drop
            ((host_block r).length + 1)).drop 3).take
        (host_block r).length = _
    rw [drop_append_of_le_len 3 _ _ h3, hm]
    rw [show m + 3 = (m + 2) + 1 from rfl, List.take_succ_cons,
      show m + 2 = (m + 1) + 1 from rfl, List.take_succ_cons,
      List.take_succ_cons]
    rw [show m = ((host_block r).drop 3).length from by
      rw [List.length_drop, hm]; omega, List.take_left]
    rfl
  unfold write_header_bytes wh_loop wh_buf2 wh_buf1
  rw [hh]
  show (sprintf_buf (request_line r) buf0).take (request_line r).length ++
      (sprintf_buf (host_block r)
        (sprintf_buf (request_line r) buf0)).take (host_block r).length ++
      ([] : List Char) ++
      (sprintf_buf ("\r\n".data)
        (sprintf_buf (host_block r)
          (sprintf_buf (request_line r) buf0))).take
        (host_block r).length = _
  rw [sprintf_buf_take (request_line r) buf0,
    sprintf_buf_take (host_block r) (sprintf_buf (request_line r) buf0),
    List.append_nil, hfin]

set_option maxRecDepth 4000 in
/-- C4 (code bug).  At a concrete successfully parsed request (GET /,
no client Host header, no extra client headers) and for every initial
content of the stack buffer (it is uninitialized in C): the bytes
`write_header` sends to the origin are the claimed sequence followed by
a NUL byte and the stale tail of the host block, because the final
`sprintf(buf, "\r\n")` discards its returned length and the following
`rio_writen` reuses the previous `buf_len`.  In particular the stream
does not end at the blank line and differs from the claimed bytes. -/
theorem write_header_trailing_junk :
    ∀ buf0 : List Char,
      write_header_bytes ⟨"GET", "/", "h", "80", none, []⟩ buf0 =
        claimed_header_bytes ⟨"GET", "/", "h", "80", none, []⟩ ++
          NUL :: (host_block ⟨"GET", "/", "h", "80", none, []⟩).drop 3 ∧
      write_header_bytes ⟨"GET", "/", "h", "80", none, []⟩ buf0 ≠
        claimed_header_bytes ⟨"GET", "/", "h", "80", none, []⟩ := by
  intro buf0
  have h3 : 3 ≤ (host_block ⟨"GET", "/", "h", "80", none, []⟩).length := by
    decide
  have heq := write_header_bytes_no_extra_headers
    ⟨"GET", "/", "h", "80", none, []⟩ rfl h3 buf0
  have hclaim : claimed_header_bytes ⟨"GET", "/", "h", "80", none, []⟩ =
      request_line ⟨"GET", "/", "h", "80", none, []⟩ ++
        host_block ⟨"GET", "/", "h", "80", none, []⟩ ++ "\r\n".data := by
    unfold claimed_header_bytes
    simp
  constructor
  · rw [heq, hclaim]
    simp [List.append_assoc]
  · rw [heq, hclaim]
    intro hcontra
    have hlen := congrArg List.length hcontra
    simp only [List.length_append, List.length_cons] at hlen
    omega

/-- C6 (code bug).  Concrete scenario: the cache holds one 600,000-byte
entry "/p" with reference count 2 — the baseline list reference plus
one reader pin (a `cache_gettext` caller mid-stream, holding no lock,
between its `ref_cont++` and its later `ref_cont--`).  Inserting
500,000 bytes under "/y" must evict "/p"; `cache_remblock` decrements
the count to 1 and `block_free` busy-waits for 0 while `cache_insert`
still holds the structural mutex — exactly the lock-held wait the claim
says never happens.  (The claim's first half does hold in the code: a
block is physically freed only once its reference count reaches zero,
which is `block_free_returns`.) -/
theorem insert_busy_waits_with_lock_held :
    waits_holding_lock
      (insert_trace "/y" 500000
        (⟨600000, [⟨600000, 2, "/p", []⟩]⟩ : cinfo)) 0 = true := by
  decide
